import Mathlib

/-!  Verification development for the file-splitting tool (source: src/分割.py).

The repository has two logic-bearing functions, both embedded below:

* `parse_size` converts one human-readable size token ("100", "1.5mb", ...)
  into a byte count, raising a format error for inputs its regular
  expression rejects;
* `split_file` streams a source file into successive chunk files of the
  planned sizes and flushes any remaining bytes into one trailing chunk;
* `start_split` models the callback's plan derivation (auto-expansion of a
  single size token into a repeated plan) followed by the split.

Modelling conventions:
* file contents are byte lists (`List Nat`); file-system effects are
  returned as data: `SplitResult.disk` lists the chunk files created, in
  creation order, with their contents;
* the numeric literal of `parse_size` goes through `float(...)` in the
  source; it is modelled with IEEE-754 binary64 semantics: correct
  rounding to nearest with ties to even, overflow to infinity, and the
  `OverflowError` that `int(...)` raises on an infinite value;
* an I/O failure of a write call is modelled by an oracle
  `failAt : Option Nat`: the write call with running index `k` raises
  exactly when `failAt = some k`;
* strings are handled at full ASCII fidelity; the source's `strip`,
  `lower`, `\d` and `\s` additionally handle some non-ASCII code points,
  which no claim exercises.
-/

set_option autoImplicit false

/-! ### SizeParser (`parse_size`, src/分割.py lines 8-32) -/

/-- The characters Python's `str.strip()` strips and regex `\s` matches in
the ASCII range: tab through carriage return (`\t \n \v \f \r`), the
separator controls `\x1c`-`\x1f`, and the space. -/
def pyWhitespace (c : Char) : Bool :=
  c = ' ' || c = '\t' || c = '\n' || c = '\r' || c = '\x0b' || c = '\x0c' ||
    c = '\x1c' || c = '\x1d' || c = '\x1e' || c = '\x1f'

/-- Python `str.strip()`: drop whitespace from both ends. -/
def pyStrip (s : List Char) : List Char :=
  ((s.dropWhile pyWhitespace).reverse.dropWhile pyWhitespace).reverse

/-- Python `str.lower()` (ASCII fragment). -/
def pyLower (s : List Char) : List Char :=
  s.map Char.toLower

/-- The groups captured by a successful match of the source's regular
expression `(\d+\.?\d*)\s*([kmgb]?)(b?)` anchored on both sides:
integer digits, an optional dot, fractional digits, the optional unit
letter of group 2, and whether group 3 captured a trailing `b`. -/
structure SizeMatch where
  intDigits : List Char
  hasDot : Bool
  fracDigits : List Char
  unitChar : Option Char
  hasTrailB : Bool
deriving DecidableEq, Repr

/-- Matcher for `^(\d+\.?\d*)\s*([kmgb]?)(b?)$` (src/分割.py line 15).
All sub-patterns are character-class based, so greedy matching is
deterministic; the two ways a single trailing `b` can be captured
(group 2 or group 3) yield the same unit resolution in the source. -/
def matchSizeRe (s : List Char) : Option SizeMatch :=
  let d1 := s.takeWhile Char.isDigit
  let r1 := s.dropWhile Char.isDigit
  if d1.length = 0 then none
  else
    let dotted : Bool × List Char :=
      match r1 with
      | '.' :: t => (true, t)
      | _ => (false, r1)
    let d2 := dotted.2.takeWhile Char.isDigit
    let r3 := dotted.2.dropWhile Char.isDigit
    let r4 := r3.dropWhile pyWhitespace
    match r4 with
    | [] => some ⟨d1, dotted.1, d2, none, false⟩
    | [c] =>
      if c = 'k' || c = 'm' || c = 'g' || c = 'b' then
        some ⟨d1, dotted.1, d2, some c, false⟩
      else none
    | [c, c2] =>
      if (c = 'k' || c = 'm' || c = 'g' || c = 'b') && c2 = 'b' then
        some ⟨d1, dotted.1, d2, some c, true⟩
      else none
    | _ => none

/-- Python `str.rstrip('b')`: drop trailing `b` characters. -/
def rstripB (l : List Char) : List Char :=
  (l.reverse.dropWhile (fun c => c = 'b')).reverse

/-- `unit_part = (match.group(2) + match.group(3)).rstrip('b')`
(src/分割.py line 20). -/
def unitPart (m : SizeMatch) : List Char :=
  let raw :=
    (match m.unitChar with
     | none => []
     | some c => [c]) ++ (if m.hasTrailB then ['b'] else [])
  rstripB raw

/-- The unit-resolution chain of src/分割.py lines 23-32; `none` models the
final `raise ValueError` branch for an unknown unit. -/
def unitMultiplier (u : List Char) : Option Nat :=
  if u = [] || u = ['b'] then some 1
  else if u = ['k'] || u = ['k', 'b'] then some 1024
  else if u = ['m'] || u = ['m', 'b'] then some (1024 ^ 2)
  else if u = ['g'] || u = ['g', 'b'] then some (1024 ^ 3)
  else none

/-- Numeric value of a digit string (most significant first). -/
def digitsToNat (ds : List Char) : Nat :=
  ds.foldl (fun a c => a * 10 + (c.toNat - 48)) 0

/-! #### IEEE-754 binary64 model for `float(...)` / `int(...)`

The source computes `int(float(number) * multiplier)`.  CPython's
`float(str)` is the correctly rounded binary64 value of the decimal
(round to nearest, ties to even, overflow to infinity); every multiplier
is a power of two, so the multiplication is exact apart from overflow to
infinity; and `int(...)` truncates toward zero, raising `OverflowError`
on an infinite value.  A finite non-negative double is represented below
as a significand/binary-exponent pair `(m, t)` of value `m * 2^t`;
`none` stands for infinity. -/

/-- Fuel-driven floor of the base-2 logarithm; the fuel is a structural
bound on the halving depth, and calling with `fuel = n` (as `natLog2`
does) is exact. -/
def natLog2F : Nat → Nat → Nat
  | 0, _ => 0
  | fuel + 1, n => if n ≤ 1 then 0 else natLog2F fuel (n / 2) + 1

/-- Floor of the base-2 logarithm of a positive natural. -/
def natLog2 (n : Nat) : Nat := natLog2F n n

/-- Floor of the base-2 logarithm of `a / b` for positive `a`, `b`: the
unique `e` with `2^e ≤ a/b < 2^(e+1)`.  For `a < b` the leading-bit
positions of `a` and `b` leave exactly two candidates, decided by one
comparison. -/
def ratLog2 (a b : Nat) : Int :=
  if b ≤ a then (natLog2 (a / b) : Int)
  else
    let d := natLog2 b - natLog2 a
    if b ≤ a * 2 ^ d then -(d : Int) else -((d + 1 : Nat) : Int)

/-- Round `a / b` (for `b > 0`) to an integer: nearest, ties to even. -/
def roundHalfEven (a b : Nat) : Nat :=
  let n := a / b
  let r := a % b
  if 2 * r < b then n
  else if b < 2 * r then n + 1
  else if n % 2 = 0 then n else n + 1

/-- Rational value of a finite double given as significand and binary
exponent. -/
def floatVal (p : Nat × Int) : ℚ :=
  (p.1 : ℚ) * (2 : ℚ) ^ p.2

/-- Whether `m * 2^t` has reached the binary64 overflow threshold
`2^1024` (at most one of the two shifts is non-trivial). -/
def overflows (m : Nat) (t : Int) : Bool :=
  decide (2 ^ 1024 * 2 ^ (-t).toNat ≤ m * 2 ^ t.toNat)

/-- CPython `float` of the non-negative decimal `D / 10^k`
(`float(match.group(1))`, src/分割.py line 19): the correctly rounded
binary64 value — the true value is rounded at the scale `t` of its unit
in the last place (clamped at the subnormal scale `2^-1074`) to nearest,
ties to even — with `none` for overflow to infinity. -/
def pyFloat (D k : Nat) : Option (Nat × Int) :=
  if D = 0 then some (0, 0)
  else
    let e := ratLog2 D (10 ^ k)
    let t := max (e - 52) (-1074)
    let m := roundHalfEven (D * 2 ^ (-t).toNat) (10 ^ k * 2 ^ t.toNat)
    if overflows m t then none else some (m, t)

/-- Product of a double with one of the unit multipliers
(`number * 1024**i`, src/分割.py lines 24-30).  Every multiplier is a
power of two, so the significand is scaled exactly; the result is `none`
(infinity) on overflow, and infinity stays infinite. -/
def pyFloatMul (p : Option (Nat × Int)) (mult : Nat) : Option (Nat × Int) :=
  match p with
  | none => none
  | some (m, t) => if overflows (m * mult) t then none else some (m * mult, t)

/-- CPython `int(...)` of a finite non-negative double: truncation toward
zero, which for a non-negative value is the floor. -/
def floatToInt (m : Nat) (t : Int) : Nat :=
  m * 2 ^ t.toNat / 2 ^ (-t).toNat

/-- The message of the `OverflowError` CPython raises for `int(...)` of an
infinite value. -/
def overflowMsg : String := "cannot convert float infinity to integer"

/-- `parse_size` (src/分割.py lines 8-32).  The captured decimal literal
`d1.d2` has true value `digitsToNat (d1 ++ d2) / 10 ^ d2.length`; it is
converted by `float(...)` (modelled by `pyFloat`), multiplied by the
resolved unit (`pyFloatMul`, exact up to overflow), and truncated by
`int(...)` (`floatToInt`), which raises the overflow error on an infinite
value.  A format error carries the offending token (the stripped,
lowercased input, as interpolated into the source's `ValueError`
message). -/
def parse_size (s : String) : Except String Nat :=
  let t := pyLower (pyStrip s.data)
  if t.length = 0 then Except.ok 0
  else
    match matchSizeRe t with
    | none => Except.error (String.mk t)
    | some m =>
      match unitMultiplier (unitPart m) with
      | none => Except.error (String.mk (unitPart m))
      | some mult =>
        match pyFloatMul (pyFloat (digitsToNat (m.intDigits ++ m.fracDigits))
            m.fracDigits.length) mult with
        | none => Except.error overflowMsg
        | some q => Except.ok (floatToInt q.1 q.2)

/-- Multiplier table as the specification states it: 1 for no unit or a
bare `b`, 1024 for `k`, 1024 squared for `m`, 1024 cubed for `g`; a
trailing `b` after the unit letter does not change it. -/
def specMultiplier (m : SizeMatch) : Nat :=
  match m.unitChar with
  | some 'k' => 1024
  | some 'm' => 1024 ^ 2
  | some 'g' => 1024 ^ 3
  | _ => 1

/-- Exact value of the captured decimal literal `d1.d2`. -/
def numberVal (m : SizeMatch) : ℚ :=
  (digitsToNat (m.intDigits ++ m.fracDigits) : ℚ) / (10 : ℚ) ^ m.fracDigits.length

/-- The value branch of `parse_size` for a matched token, with the unit
resolution written via `specMultiplier` (equal to the source's chain by
`unitMultiplier_unitPart`). -/
def pyResult (m : SizeMatch) : Except String Nat :=
  match pyFloatMul (pyFloat (digitsToNat (m.intDigits ++ m.fracDigits))
      m.fracDigits.length) (specMultiplier m) with
  | none => Except.error overflowMsg
  | some q => Except.ok (floatToInt q.1 q.2)

/-- The tokens the parser accepts: the empty/whitespace token (parsed as
zero by the documented rule) together with every token matched by the
regular expression. -/
def acceptedToken (s : String) : Bool :=
  let t := pyLower (pyStrip s.data)
  (t.length == 0) || (matchSizeRe t).isSome

/-! ### ChunkWriter (`split_file`, src/分割.py lines 34-65) -/

/-- The read bound of the copy loop: `file.read(min(remaining, 1024*1024))`. -/
def maxReadSize : Nat := 1024 * 1024

/-- `f"{original_filename}.{chunk_number:03d}"`: Python's `{:03d}` pads the
decimal representation with zeros on the left to a minimum width of 3. -/
def pad3 (n : Nat) : String :=
  let s := toString n
  String.mk (List.replicate (3 - s.length) '0') ++ s

/-- Chunk file name (src/分割.py lines 42 and 61). -/
def chunkName (orig : String) (n : Nat) : String :=
  orig ++ "." ++ pad3 n

/-- Progress messages passed to `log_func`: one per completed chunk
(index, target size, actual size — src/分割.py line 55) and one for the
trailing remainder (name, size — src/分割.py line 64). -/
inductive LogMsg where
  | chunk (index target actual : Nat)
  | tail (name : String) (size : Nat)
deriving DecidableEq, Repr

/-- Outcome of one run of the inner `while remaining > 0` copy loop
(src/分割.py lines 48-53): bytes written into the chunk file, rest of the
source, the sizes returned by each `file.read` call, the write-call counter
after the loop, and whether every write succeeded. -/
structure CopyResult where
  content : List Nat
  fileRest : List Nat
  reads : List Nat
  wcEnd : Nat
  ok : Bool
deriving DecidableEq, Repr

/-- The inner copy loop (src/分割.py lines 48-53).  `fuel` is a structural
bound on the iteration count: every iteration writes at least one byte of
`remaining`, so calling with `fuel = remaining` (as `splitLoop` does) is
exact.  A read that returns no bytes ends the loop (`if not chunk: break`);
a write call whose index equals `failAt` raises, writing nothing. -/
def copyLoop (failAt : Option Nat) : Nat → List Nat → Nat → Nat → CopyResult
  | 0, fr, _, wc => ⟨[], fr, [], wc, true⟩
  | fuel + 1, fr, remaining, wc =>
    if remaining = 0 then ⟨[], fr, [], wc, true⟩
    else
      let piece := fr.take (min remaining maxReadSize)
      if piece.length = 0 then ⟨[], fr, [0], wc, true⟩
      else if failAt = some wc then
        ⟨[], fr.drop piece.length, [piece.length], wc + 1, false⟩
      else
        let r := copyLoop failAt fuel (fr.drop piece.length) (remaining - piece.length) (wc + 1)
        ⟨piece ++ r.content, r.fileRest, piece.length :: r.reads, r.wcEnd, r.ok⟩

/-- Observable outcome of `split_file`: chunk files on disk in creation
order (name, content), progress log, sizes returned by the source reads,
final write-call counter, and success flag (`ok = false` models the
propagated exception). -/
structure SplitResult where
  disk : List (String × List Nat)
  log : List LogMsg
  reads : List Nat
  wcEnd : Nat
  ok : Bool
deriving DecidableEq, Repr

/-- The chunk loop and remainder handling of `split_file`
(src/分割.py lines 40-65).  For each planned size the chunk file is
created, filled by `copyLoop`, and logged; after the plan, `file.read()`
reads the whole rest in one call and, when non-empty, writes it as one
more chunk continuing the numbering.  A failed write aborts: the partial
chunk file stays on disk, its log line is never emitted, and no further
plan entry is processed. -/
def splitLoop (orig : String) (failAt : Option Nat) :
    List Nat → List Nat → Nat → Nat → SplitResult
  | fr, [], idx, wc =>
    if fr.length = 0 then ⟨[], [], [fr.length], wc, true⟩
    else if failAt = some wc then
      ⟨[(chunkName orig idx, [])], [], [fr.length], wc + 1, false⟩
    else
      ⟨[(chunkName orig idx, fr)], [LogMsg.tail (chunkName orig idx) fr.length],
        [fr.length], wc + 1, true⟩
  | fr, size :: plan, idx, wc =>
    let c := copyLoop failAt size fr size wc
    if c.ok then
      let r := splitLoop orig failAt c.fileRest plan (idx + 1) c.wcEnd
      ⟨(chunkName orig idx, c.content) :: r.disk,
        LogMsg.chunk idx size c.content.length :: r.log,
        c.reads ++ r.reads, r.wcEnd, r.ok⟩
    else
      ⟨[(chunkName orig idx, c.content)], [], c.reads, c.wcEnd, false⟩

/-- `split_file` (src/分割.py lines 34-65): chunk numbering starts at 1,
the write-call counter at 0. -/
def split_file (orig : String) (file plan : List Nat) (failAt : Option Nat) : SplitResult :=
  splitLoop orig failAt file plan 1 0

/-! ### Plan derivation (`FileSplitterUI.start_split`, src/分割.py lines 157-171) -/

/-- The message of the `ValueError` raised when the single chunk size is
not positive. -/
def invalidSizeMsg : String := "分块大小必须大于0"

/-- Auto-expansion of a single size token (src/分割.py lines 157-168):
with exactly one parsed size `u` and total source size `T`, fail when
`u ≤ 0` (for `Nat` sizes: `u = 0`), else repeat `u` exactly
`T / u` times, plus once more when `T % u ≠ 0`.  Any other number of
tokens is left unchanged. -/
def derivePlan (sizes : List Nat) (T : Nat) : Except String (List Nat) :=
  match sizes with
  | [u] =>
    if u = 0 then Except.error invalidSizeMsg
    else Except.ok (List.replicate (T / u + (if T % u ≠ 0 then 1 else 0)) u)
  | _ => Except.ok sizes

/-- Plan derivation followed by the split, as `start_split` runs them:
an error in derivation aborts before any chunk file is created. -/
def start_split (orig : String) (file : List Nat) (sizes : List Nat)
    (failAt : Option Nat) : Except String SplitResult :=
  match derivePlan sizes file.length with
  | Except.error e => Except.error e
  | Except.ok plan => Except.ok (split_file orig file plan failAt)

/-! ### Pure closed forms of the split (for the correctness statements) -/

/-- Chunk files written by a fault-free run: successive takes of the
planned sizes, then the non-empty rest as one trailing chunk. -/
def pureDisk (orig : String) : List Nat → List Nat → Nat → List (String × List Nat)
  | fr, [], idx => if fr.length = 0 then [] else [(chunkName orig idx, fr)]
  | fr, s :: p, idx => (chunkName orig idx, fr.take s) :: pureDisk orig (fr.drop s) p (idx + 1)

/-- Progress log of a fault-free run. -/
def pureLog (orig : String) : List Nat → List Nat → Nat → List LogMsg
  | fr, [], idx =>
    if fr.length = 0 then [] else [LogMsg.tail (chunkName orig idx) fr.length]
  | fr, s :: p, idx =>
    LogMsg.chunk idx s (fr.take s).length :: pureLog orig (fr.drop s) p (idx + 1)

/-! ### Lemmas on the inner copy loop -/

theorem copyLoop_none_spec (fuel : Nat) :
    ∀ (fr : List Nat) (rem wc : Nat), rem ≤ fuel →
      (copyLoop none fuel fr rem wc).content = fr.take rem ∧
      (copyLoop none fuel fr rem wc).fileRest = fr.drop rem ∧
      (copyLoop none fuel fr rem wc).ok = true := by
  induction fuel with
  | zero =>
    intro fr rem wc h
    have h0 : rem = 0 := Nat.le_zero.mp h
    subst h0
    simp [copyLoop]
  | succ n ih =>
    intro fr rem wc h
    by_cases h0 : rem = 0
    · subst h0; simp [copyLoop]
    · have hm : 0 < min rem maxReadSize := by
        have : 0 < maxReadSize := by simp [maxReadSize]
        omega
      by_cases hfr : (fr.take (min rem maxReadSize)).length = 0
      · have hnil : fr = [] := by
          rw [List.length_take] at hfr
          rcases List.eq_nil_or_concat fr with h1 | ⟨l, a, h1⟩
          · exact h1
          · exfalso; subst h1; simp at hfr; omega
        subst hnil
        simp [copyLoop, h0, hfr]
      · -- main iteration: one non-empty piece, then the recursive call
        set pl := (fr.take (min rem maxReadSize)).length with hpl
        have hpl_le_rem : pl ≤ rem := by
          rw [hpl, List.length_take]; omega
        have hpl_pos : 0 < pl := Nat.pos_of_ne_zero hfr
        have hrec := ih (fr.drop pl) (rem - pl) (wc + 1) (by omega)
        have hstep : copyLoop none (n + 1) fr rem wc =
            ⟨fr.take (min rem maxReadSize) ++
                (copyLoop none n (fr.drop pl) (rem - pl) (wc + 1)).content,
              (copyLoop none n (fr.drop pl) (rem - pl) (wc + 1)).fileRest,
              pl :: (copyLoop none n (fr.drop pl) (rem - pl) (wc + 1)).reads,
              (copyLoop none n (fr.drop pl) (rem - pl) (wc + 1)).wcEnd,
              (copyLoop none n (fr.drop pl) (rem - pl) (wc + 1)).ok⟩ := by
          rw [copyLoop]
          simp only [if_neg h0, hpl]
          rw [if_neg hfr]
          simp
        rw [hstep]
        refine ⟨?_, ?_, ?_⟩
        · rw [hrec.1]
          have htk : fr.take (min rem maxReadSize) = fr.take pl := by
            rw [List.take_eq_take, hpl, List.length_take]
            omega
          rw [htk, ← List.take_add, Nat.add_sub_cancel' hpl_le_rem]
        · rw [hrec.2.1, List.drop_drop]
          congr 1
          omega
        · exact hrec.2.2

theorem copyLoop_reads_le (failAt : Option Nat) (fuel : Nat) :
    ∀ (fr : List Nat) (rem wc x : Nat),
      x ∈ (copyLoop failAt fuel fr rem wc).reads → x ≤ maxReadSize := by
  induction fuel with
  | zero => intro fr rem wc x hx; simp [copyLoop] at hx
  | succ n ih =>
    intro fr rem wc x hx
    have hM : 0 < maxReadSize := by simp [maxReadSize]
    by_cases h0 : rem = 0
    · subst h0; simp [copyLoop] at hx
    · have hple : (fr.take (min rem maxReadSize)).length ≤ maxReadSize := by
        rw [List.length_take]; omega
      by_cases hfr : (fr.take (min rem maxReadSize)).length = 0
      · rw [copyLoop] at hx
        simp only [if_neg h0] at hx
        rw [if_pos hfr] at hx
        simp at hx
        omega
      · rw [copyLoop] at hx
        simp only [if_neg h0] at hx
        rw [if_neg hfr] at hx
        by_cases hf : failAt = some wc
        · rw [if_pos hf] at hx
          simp at hx
          omega
        · rw [if_neg hf] at hx
          simp only [List.mem_cons] at hx
          rcases hx with hx | hx
          · omega
          · exact ih _ _ _ _ hx

theorem copyLoop_wcEnd_ge (failAt : Option Nat) (fuel : Nat) :
    ∀ (fr : List Nat) (rem wc : Nat), wc ≤ (copyLoop failAt fuel fr rem wc).wcEnd := by
  induction fuel with
  | zero => intro fr rem wc; simp [copyLoop]
  | succ n ih =>
    intro fr rem wc
    by_cases h0 : rem = 0
    · subst h0; simp [copyLoop]
    · by_cases hfr : (fr.take (min rem maxReadSize)).length = 0
      · rw [copyLoop]; simp only [if_neg h0]; rw [if_pos hfr]
      · rw [copyLoop]; simp only [if_neg h0]; rw [if_neg hfr]
        by_cases hf : failAt = some wc
        · rw [if_pos hf]; simp
        · rw [if_neg hf]
          have := ih (fr.drop (fr.take (min rem maxReadSize)).length)
            (rem - (fr.take (min rem maxReadSize)).length) (wc + 1)
          simp only []
          omega

theorem copyLoop_eq_of_ge (k : Nat) (fuel : Nat) :
    ∀ (fr : List Nat) (rem wc : Nat),
      (copyLoop none fuel fr rem wc).wcEnd ≤ k →
      copyLoop (some k) fuel fr rem wc = copyLoop none fuel fr rem wc := by
  induction fuel with
  | zero => intro fr rem wc _; rfl
  | succ n ih =>
    intro fr rem wc hk
    by_cases h0 : rem = 0
    · simp [copyLoop, h0]
    · by_cases hfr : (fr.take (min rem maxReadSize)).length = 0
      · rw [copyLoop, copyLoop]; simp only [if_neg h0]; rw [if_pos hfr, if_pos hfr]
      · have hwc : wc + 1 ≤ (copyLoop none (n + 1) fr rem wc).wcEnd := by
          rw [copyLoop]; simp only [if_neg h0]; rw [if_neg hfr]
          exact copyLoop_wcEnd_ge none n _ _ (wc + 1)
        have hne : ¬ (some k = some wc) := by
          intro hcontra
          have : k = wc := Option.some.inj hcontra
          omega
        have hk' : (copyLoop none n (fr.drop (fr.take (min rem maxReadSize)).length)
            (rem - (fr.take (min rem maxReadSize)).length) (wc + 1)).wcEnd ≤ k := by
          rw [copyLoop] at hk
          simp only [if_neg h0] at hk
          rw [if_neg hfr] at hk
          exact hk
        rw [copyLoop, copyLoop]
        simp only [if_neg h0]
        rw [if_neg hfr, if_neg hfr, if_neg hne]
        rw [ih _ _ _ hk']
        rw [if_neg (show ¬ (none : Option Nat) = some wc by simp)]

theorem copyLoop_fail (k : Nat) (fuel : Nat) :
    ∀ (fr : List Nat) (rem wc : Nat), wc ≤ k →
      k < (copyLoop none fuel fr rem wc).wcEnd →
      (copyLoop (some k) fuel fr rem wc).ok = false := by
  induction fuel with
  | zero => intro fr rem wc h1 h2; simp [copyLoop] at h2; omega
  | succ n ih =>
    intro fr rem wc h1 h2
    by_cases h0 : rem = 0
    · subst h0; simp [copyLoop] at h2; omega
    · by_cases hfr : (fr.take (min rem maxReadSize)).length = 0
      · rw [copyLoop] at h2; simp only [if_neg h0] at h2; rw [if_pos hfr] at h2
        simp at h2; omega
      · rw [copyLoop] at h2
        simp only [if_neg h0] at h2
        rw [if_neg hfr] at h2
        by_cases hf : k = wc
        · subst hf
          rw [copyLoop]
          simp only [if_neg h0]
          rw [if_neg hfr]
          simp
        · have hne : ¬ (some k = some wc) := by
            intro hcontra; exact hf (Option.some.inj hcontra)
          rw [copyLoop]
          simp only [if_neg h0]
          rw [if_neg hfr, if_neg hne]
          have := ih (fr.drop (fr.take (min rem maxReadSize)).length)
            (rem - (fr.take (min rem maxReadSize)).length) (wc + 1) (by omega) h2
          simpa using this

/-! ### The fault-free split computes the pure closed forms -/

theorem splitLoop_none_spec (orig : String) :
    ∀ (plan fr : List Nat) (idx wc : Nat),
      (splitLoop orig none fr plan idx wc).disk = pureDisk orig fr plan idx ∧
      (splitLoop orig none fr plan idx wc).log = pureLog orig fr plan idx ∧
      (splitLoop orig none fr plan idx wc).ok = true := by
  intro plan
  induction plan with
  | nil =>
    intro fr idx wc
    by_cases h : fr.length = 0
    · simp [splitLoop, pureDisk, pureLog, h]
    · simp [splitLoop, pureDisk, pureLog, h]
  | cons s p ih =>
    intro fr idx wc
    have hc := copyLoop_none_spec s fr s wc (le_refl s)
    rw [splitLoop]
    simp only [hc.2.2, if_true, hc.1, hc.2.1]
    have hr := ih (fr.drop s) (idx + 1) (copyLoop none s fr s wc).wcEnd
    simp only [hr.1, hr.2.1, hr.2.2]
    simp [pureDisk, pureLog, hc.1]

theorem splitLoop_none_reads (orig : String) :
    ∀ (plan fr : List Nat) (idx wc : Nat),
      ∃ l, (splitLoop orig none fr plan idx wc).reads = l ++ [(fr.drop plan.sum).length] ∧
        ∀ x ∈ l, x ≤ maxReadSize := by
  intro plan
  induction plan with
  | nil =>
    intro fr idx wc
    refine ⟨[], ?_, by simp⟩
    by_cases h : fr.length = 0 <;> simp [splitLoop, h]
  | cons s p ih =>
    intro fr idx wc
    have hc := copyLoop_none_spec s fr s wc (le_refl s)
    rw [splitLoop]
    simp only [hc.2.2, if_true, hc.2.1]
    obtain ⟨l, hl, hb⟩ := ih (fr.drop s) (idx + 1) (copyLoop none s fr s wc).wcEnd
    refine ⟨(copyLoop none s fr s wc).reads ++ l, ?_, ?_⟩
    · rw [hl, List.append_assoc]
      have hx : ((fr.drop s).drop p.sum).length = (fr.drop ((s :: p).sum)).length := by
        rw [List.drop_drop, List.sum_cons]
      rw [hx]
    · intro x hx
      rcases List.mem_append.mp hx with hx | hx
      · exact copyLoop_reads_le none s fr s wc x hx
      · exact hb x hx

theorem splitLoop_wcEnd_ge (orig : String) (failAt : Option Nat) :
    ∀ (plan fr : List Nat) (idx wc : Nat),
      wc ≤ (splitLoop orig failAt fr plan idx wc).wcEnd := by
  intro plan
  induction plan with
  | nil =>
    intro fr idx wc
    by_cases h : fr.length = 0
    · simp [splitLoop, h]
    · by_cases hf : failAt = some wc <;> simp [splitLoop, h, hf]
  | cons s p ih =>
    intro fr idx wc
    rw [splitLoop]
    have hcw := copyLoop_wcEnd_ge failAt s fr s wc
    by_cases hok : (copyLoop failAt s fr s wc).ok = true
    · simp only [hok, if_true]
      have := ih (copyLoop failAt s fr s wc).fileRest (idx + 1) (copyLoop failAt s fr s wc).wcEnd
      exact le_trans hcw this
    · simp only [Bool.not_eq_true] at hok
      simp only [hok, Bool.false_eq_true, if_false]
      exact hcw

/-! ### Shape lemmas on the pure closed forms -/

theorem pureDisk_flatten (orig : String) :
    ∀ (plan fr : List Nat) (idx : Nat),
      ((pureDisk orig fr plan idx).map (fun e => e.2)).flatten = fr := by
  intro plan
  induction plan with
  | nil =>
    intro fr idx
    by_cases h : fr.length = 0
    · have : fr = [] := List.length_eq_zero.mp h
      subst this
      simp [pureDisk]
    · simp [pureDisk, h]
  | cons s p ih =>
    intro fr idx
    simp only [pureDisk, List.map_cons, List.flatten_cons, ih (fr.drop s) (idx + 1)]
    exact List.take_append_drop s fr

theorem pureDisk_sizes_sum (orig : String) (plan fr : List Nat) (idx : Nat) :
    ((pureDisk orig fr plan idx).map (fun e => e.2.length)).sum = fr.length := by
  have h := congrArg List.length (pureDisk_flatten orig plan fr idx)
  rw [List.length_flatten, List.map_map] at h
  simpa using h

theorem pureDisk_length (orig : String) :
    ∀ (plan fr : List Nat) (idx : Nat),
      (pureDisk orig fr plan idx).length =
        plan.length + (if (fr.drop plan.sum).length = 0 then 0 else 1) := by
  intro plan
  induction plan with
  | nil =>
    intro fr idx
    by_cases h : fr.length = 0 <;> simp [pureDisk, h]
  | cons s p ih =>
    intro fr idx
    simp only [pureDisk, List.length_cons, ih (fr.drop s) (idx + 1), List.sum_cons,
      List.drop_drop]
    omega

theorem pureDisk_names (orig : String) :
    ∀ (plan fr : List Nat) (idx : Nat),
      (pureDisk orig fr plan idx).map Prod.fst =
        (List.range' idx (pureDisk orig fr plan idx).length).map (chunkName orig) := by
  intro plan
  induction plan with
  | nil =>
    intro fr idx
    by_cases h : fr.length = 0 <;> simp [pureDisk, h, List.range']
  | cons s p ih =>
    intro fr idx
    simp only [pureDisk, List.map_cons, List.length_cons, ih (fr.drop s) (idx + 1)]
    rfl

theorem pureDisk_get (orig : String) :
    ∀ (plan fr : List Nat) (idx i : Nat), i < plan.length →
      (pureDisk orig fr plan idx)[i]? =
        some (chunkName orig (idx + i),
          (fr.drop ((plan.take i).sum)).take (plan.getD i 0)) := by
  intro plan
  induction plan with
  | nil => intro fr idx i h; simp at h
  | cons s p ih =>
    intro fr idx i h
    cases i with
    | zero => simp [pureDisk]
    | succ i =>
      simp only [pureDisk, List.getElem?_cons_succ]
      rw [ih (fr.drop s) (idx + 1) i (by simpa using h)]
      have e1 : idx + 1 + i = idx + (i + 1) := by omega
      have e2 : (((s :: p).take (i + 1)).sum : Nat) = s + (p.take i).sum := by
        simp [List.sum_cons]
      have e3 : (s :: p).getD (i + 1) 0 = p.getD i 0 := rfl
      rw [e1, e2, e3, List.drop_drop]

theorem pureLog_get (orig : String) :
    ∀ (plan fr : List Nat) (idx i : Nat), i < plan.length →
      (pureLog orig fr plan idx)[i]? =
        some (LogMsg.chunk (idx + i) (plan.getD i 0)
          ((fr.drop ((plan.take i).sum)).take (plan.getD i 0)).length) := by
  intro plan
  induction plan with
  | nil => intro fr idx i h; simp at h
  | cons s p ih =>
    intro fr idx i h
    cases i with
    | zero => simp [pureLog]
    | succ i =>
      simp only [pureLog, List.getElem?_cons_succ]
      rw [ih (fr.drop s) (idx + 1) i (by simpa using h)]
      have e1 : idx + 1 + i = idx + (i + 1) := by omega
      have e2 : (((s :: p).take (i + 1)).sum : Nat) = s + (p.take i).sum := by
        simp [List.sum_cons]
      have e3 : (s :: p).getD (i + 1) 0 = p.getD i 0 := rfl
      rw [e1, e2, e3, List.drop_drop]

theorem pureDisk_getLast_tail (orig : String) :
    ∀ (plan fr : List Nat) (idx : Nat), (fr.drop plan.sum).length ≠ 0 →
      (pureDisk orig fr plan idx).getLast? =
        some (chunkName orig (idx + plan.length), fr.drop plan.sum) := by
  intro plan
  induction plan with
  | nil =>
    intro fr idx h
    simp only [List.sum_nil, List.drop_zero] at h ⊢
    simp [pureDisk, h]
  | cons s p ih =>
    intro fr idx h
    have h' : ((fr.drop s).drop p.sum).length ≠ 0 := by
      rw [List.drop_drop]
      simpa [List.sum_cons] using h
    have hrec := ih (fr.drop s) (idx + 1) h'
    have hne : pureDisk orig (fr.drop s) p (idx + 1) ≠ [] := by
      intro hcontra
      rw [hcontra] at hrec
      simp at hrec
    simp only [pureDisk]
    rcases hx : pureDisk orig (fr.drop s) p (idx + 1) with _ | ⟨b, l⟩
    · exact absurd hx hne
    · rw [hx] at hrec
      rw [List.getLast?_cons_cons, hrec]
      have e1 : idx + 1 + p.length = idx + (s :: p).length := by
        show idx + 1 + p.length = idx + (p.length + 1)
        omega
      have e2 : (fr.drop s).drop p.sum = fr.drop ((s :: p).sum) := by
        rw [List.drop_drop, List.sum_cons]
      rw [e1, e2]

/-! ### Fault propagation through the chunk loop -/

theorem splitLoop_cons_ok (orig : String) (failAt : Option Nat) (fr : List Nat) (s : Nat)
    (p : List Nat) (idx wc : Nat) (h : (copyLoop failAt s fr s wc).ok = true) :
    splitLoop orig failAt fr (s :: p) idx wc =
      ⟨(chunkName orig idx, (copyLoop failAt s fr s wc).content) ::
          (splitLoop orig failAt (copyLoop failAt s fr s wc).fileRest p (idx + 1)
            (copyLoop failAt s fr s wc).wcEnd).disk,
        LogMsg.chunk idx s (copyLoop failAt s fr s wc).content.length ::
          (splitLoop orig failAt (copyLoop failAt s fr s wc).fileRest p (idx + 1)
            (copyLoop failAt s fr s wc).wcEnd).log,
        (copyLoop failAt s fr s wc).reads ++
          (splitLoop orig failAt (copyLoop failAt s fr s wc).fileRest p (idx + 1)
            (copyLoop failAt s fr s wc).wcEnd).reads,
        (splitLoop orig failAt (copyLoop failAt s fr s wc).fileRest p (idx + 1)
          (copyLoop failAt s fr s wc).wcEnd).wcEnd,
        (splitLoop orig failAt (copyLoop failAt s fr s wc).fileRest p (idx + 1)
          (copyLoop failAt s fr s wc).wcEnd).ok⟩ := by
  rw [splitLoop]
  simp only [h, if_true]

theorem splitLoop_cons_fail (orig : String) (failAt : Option Nat) (fr : List Nat) (s : Nat)
    (p : List Nat) (idx wc : Nat) (h : (copyLoop failAt s fr s wc).ok = false) :
    splitLoop orig failAt fr (s :: p) idx wc =
      ⟨[(chunkName orig idx, (copyLoop failAt s fr s wc).content)], [],
        (copyLoop failAt s fr s wc).reads, (copyLoop failAt s fr s wc).wcEnd, false⟩ := by
  rw [splitLoop]
  simp only [h, Bool.false_eq_true, if_false]

theorem splitLoop_fault (orig : String) (k : Nat) :
    ∀ (plan fr : List Nat) (idx wc : Nat), wc ≤ k →
      ((splitLoop orig none fr plan idx wc).wcEnd ≤ k →
        splitLoop orig (some k) fr plan idx wc = splitLoop orig none fr plan idx wc) ∧
      (k < (splitLoop orig none fr plan idx wc).wcEnd →
        (splitLoop orig (some k) fr plan idx wc).ok = false ∧
        (splitLoop orig (some k) fr plan idx wc).disk ≠ [] ∧
        (splitLoop orig (some k) fr plan idx wc).disk.dropLast =
          (splitLoop orig none fr plan idx wc).disk.take
            ((splitLoop orig (some k) fr plan idx wc).disk.length - 1) ∧
        (splitLoop orig (some k) fr plan idx wc).disk.length ≤
          (splitLoop orig none fr plan idx wc).disk.length ∧
        (splitLoop orig (some k) fr plan idx wc).log =
          (splitLoop orig none fr plan idx wc).log.take
            ((splitLoop orig (some k) fr plan idx wc).disk.length - 1)) := by
  intro plan
  induction plan with
  | nil =>
    intro fr idx wc hwk
    by_cases h : fr.length = 0
    · constructor
      · intro _
        rw [splitLoop, splitLoop]
        simp [h]
      · intro hlt
        rw [splitLoop] at hlt
        simp only [h, if_true, if_pos] at hlt
        omega
    · by_cases hk : k = wc
      · subst hk
        constructor
        · intro hle
          rw [splitLoop] at hle
          simp only [h, if_false] at hle
          rw [if_neg (show ¬ (none : Option Nat) = some k by simp)] at hle
          simp at hle
        · intro _
          rw [splitLoop, splitLoop]
          simp only [h, if_false]
          rw [if_neg (show ¬ (none : Option Nat) = some k by simp)]
          simp
      · constructor
        · intro _
          rw [splitLoop, splitLoop]
          simp only [h, if_false]
          rw [if_neg (show ¬ (none : Option Nat) = some wc by simp),
            if_neg (show ¬ (some k : Option Nat) = some wc by simp [hk])]
        · intro hlt
          rw [splitLoop] at hlt
          simp only [h, if_false] at hlt
          rw [if_neg (show ¬ (none : Option Nat) = some wc by simp)] at hlt
          simp at hlt
          omega
  | cons s p ih =>
    intro fr idx wc hwk
    have hcp : (copyLoop none s fr s wc).ok = true :=
      (copyLoop_none_spec s fr s wc (le_refl s)).2.2
    have hcpw : wc ≤ (copyLoop none s fr s wc).wcEnd := copyLoop_wcEnd_ge none s fr s wc
    rw [splitLoop_cons_ok orig none fr s p idx wc hcp]
    by_cases hcase : (copyLoop none s fr s wc).wcEnd ≤ k
    · -- the copy of this chunk does not hit the failing write
      have hcf : copyLoop (some k) s fr s wc = copyLoop none s fr s wc :=
        copyLoop_eq_of_ge k s fr s wc hcase
      rw [splitLoop_cons_ok orig (some k) fr s p idx wc (by rw [hcf]; exact hcp), hcf]
      have hih := ih (copyLoop none s fr s wc).fileRest (idx + 1)
        (copyLoop none s fr s wc).wcEnd hcase
      constructor
      · intro hle
        rw [hih.1 hle]
      · intro hlt
        obtain ⟨hok, hne, hdl, hlen, hlog⟩ := hih.2 hlt
        obtain ⟨b, l, hbl⟩ : ∃ b l,
            (splitLoop orig (some k) (copyLoop none s fr s wc).fileRest p (idx + 1)
              (copyLoop none s fr s wc).wcEnd).disk = b :: l := by
          rcases hx : (splitLoop orig (some k) (copyLoop none s fr s wc).fileRest p (idx + 1)
              (copyLoop none s fr s wc).wcEnd).disk with _ | ⟨b, l⟩
          · exact absurd hx hne
          · exact ⟨b, l, rfl⟩
        refine ⟨hok, by simp, ?_, ?_, ?_⟩
        · simp only [hbl] at hdl ⊢
          simp only [List.length_cons, Nat.add_sub_cancel]
          rw [List.dropLast_cons_of_ne_nil (by simp), hdl]
          have hll : (b :: l).length - 1 = l.length := by simp
          rw [hll]
          rfl
        · simp only [hbl, List.length_cons] at hlen ⊢
          omega
        · simp only [hbl, List.length_cons, Nat.add_sub_cancel] at hlog ⊢
          rw [hlog]
          rfl
    · -- the failing write is inside this chunk's copy loop
      push_neg at hcase
      have hcf : (copyLoop (some k) s fr s wc).ok = false :=
        copyLoop_fail k s fr s wc hwk hcase
      rw [splitLoop_cons_fail orig (some k) fr s p idx wc hcf]
      have hwr : (copyLoop none s fr s wc).wcEnd ≤
          (splitLoop orig none (copyLoop none s fr s wc).fileRest p (idx + 1)
            (copyLoop none s fr s wc).wcEnd).wcEnd :=
        splitLoop_wcEnd_ge orig none p (copyLoop none s fr s wc).fileRest (idx + 1)
          (copyLoop none s fr s wc).wcEnd
      constructor
      · intro hle
        exfalso
        simp only [] at hle
        omega
      · intro _
        refine ⟨rfl, by simp, by simp, by simp, by simp⟩

/-! ### Lemmas on the size parser -/

theorem matchSizeRe_unitChar (t : List Char) (m : SizeMatch)
    (h : matchSizeRe t = some m) :
    m.unitChar = none ∨ m.unitChar = some 'k' ∨ m.unitChar = some 'm' ∨
      m.unitChar = some 'g' ∨ m.unitChar = some 'b' := by
  simp only [matchSizeRe] at h
  split at h
  · exact absurd h (by simp)
  · split at h
    · injection h with h
      subst h
      simp
    · rename_i c heq
      split at h
      · injection h with h
        subst h
        rename_i hc
        simp only [Bool.or_eq_true, decide_eq_true_eq] at hc
        rcases hc with ((hc | hc) | hc) | hc <;> simp [hc]
      · exact absurd h (by simp)
    · rename_i c c2 heq
      split at h
      · injection h with h
        subst h
        rename_i hc
        simp only [Bool.and_eq_true, Bool.or_eq_true, decide_eq_true_eq] at hc
        rcases hc with ⟨((hc | hc) | hc) | hc, _⟩ <;> simp [hc]
      · exact absurd h (by simp)
    · exact absurd h (by simp)

theorem unitMultiplier_unitPart (m : SizeMatch)
    (h : m.unitChar = none ∨ m.unitChar = some 'k' ∨ m.unitChar = some 'm' ∨
      m.unitChar = some 'g' ∨ m.unitChar = some 'b') :
    unitMultiplier (unitPart m) = some (specMultiplier m) := by
  obtain ⟨d1, dot, d2, u, tb⟩ := m
  simp only [SizeMatch.unitChar] at h
  rcases h with h | h | h | h | h <;> subst h <;> cases tb <;> rfl

theorem matchSizeRe_ne_nil (m : SizeMatch) (h : matchSizeRe [] = some m) : False := by
  simp [matchSizeRe] at h

theorem parse_size_eval (s : String) (m : SizeMatch)
    (h : matchSizeRe (pyLower (pyStrip s.data)) = some m) :
    parse_size s = pyResult m := by
  have ht : ¬ (pyLower (pyStrip s.data)).length = 0 := by
    intro h0
    have hnil : pyLower (pyStrip s.data) = [] := List.length_eq_zero.mp h0
    rw [hnil] at h
    exact matchSizeRe_ne_nil m h
  have hu := unitMultiplier_unitPart m (matchSizeRe_unitChar _ m h)
  unfold parse_size pyResult
  rw [if_neg ht, h]
  simp only [hu]

theorem floor_scaled (D mult k : Nat) :
    Nat.floor (((D : ℚ) / (10 : ℚ) ^ k) * (mult : ℚ)) = D * mult / 10 ^ k := by
  rw [div_mul_eq_mul_div]
  have h1 : ((D : ℚ)) * (mult : ℚ) = ((D * mult : ℕ) : ℚ) := by push_cast; ring
  have h2 : ((10 : ℚ)) ^ k = ((10 ^ k : ℕ) : ℚ) := by push_cast; ring
  rw [h1, h2, Nat.floor_div_nat, Nat.floor_natCast]

theorem floatVal_eq_div (m : Nat) (t : Int) :
    floatVal (m, t) = ((m * 2 ^ t.toNat : ℕ) : ℚ) / ((2 ^ (-t).toNat : ℕ) : ℚ) := by
  unfold floatVal
  cases t with
  | ofNat n =>
    rw [show Int.ofNat n = (n : Int) from rfl, Int.toNat_natCast, Int.toNat_neg_nat,
      zpow_natCast]
    push_cast
    ring
  | negSucc n =>
    rw [show (Int.negSucc n).toNat = 0 from rfl,
      show (-Int.negSucc n).toNat = n + 1 from rfl, zpow_negSucc]
    push_cast
    field_simp

theorem floatToInt_floor (m : Nat) (t : Int) :
    floatToInt m t = Nat.floor (floatVal (m, t)) := by
  rw [floatVal_eq_div, Nat.floor_div_nat, Nat.floor_natCast]
  rfl

theorem overflows_false_iff (m : Nat) (t : Int) :
    overflows m t = false ↔ floatVal (m, t) < (2 : ℚ) ^ (1024 : ℕ) := by
  unfold overflows
  rw [decide_eq_false_iff_not, not_le, floatVal_eq_div,
    div_lt_iff (by positivity)]
  have h2 : (2 : ℚ) ^ (1024 : ℕ) * ((2 ^ (-t).toNat : ℕ) : ℚ) =
      ((2 ^ 1024 * 2 ^ (-t).toNat : ℕ) : ℚ) := by
    push_cast
    ring
  rw [h2, Nat.cast_lt]

theorem floatVal_mul (m mult : Nat) (t : Int) :
    floatVal (m * mult, t) = floatVal (m, t) * (mult : ℚ) := by
  unfold floatVal
  push_cast
  ring

/-! ### Arithmetic facts about the auto-expansion chunk count -/

theorem ceil_div_eq (T U : Nat) (hU : 0 < U) :
    T / U + (if T % U ≠ 0 then 1 else 0) = (T + U - 1) / U := by
  have hdm := Nat.div_add_mod T U
  have hmod : T % U < U := Nat.mod_lt _ hU
  by_cases h : T % U = 0
  · have h3 : (U - 1) / U = 0 := Nat.div_eq_of_lt (by omega)
    have h1 : T + U - 1 = U * (T / U) + (U - 1) := by omega
    rw [h1, Nat.mul_add_div hU, h3]
    simp [h]
  · have h3 : (T % U - 1) / U = 0 := Nat.div_eq_of_lt (by omega)
    have h2 : U * (T / U + 1) = U * (T / U) + U := by ring
    have h1 : T + U - 1 = U * (T / U + 1) + (T % U - 1) := by omega
    rw [h1, Nat.mul_add_div hU, h3]
    simp [h]

theorem ceil_mul_ge (T U : Nat) (hU : 0 < U) :
    T ≤ (T / U + (if T % U ≠ 0 then 1 else 0)) * U := by
  have hdm := Nat.div_add_mod T U
  have hmod : T % U < U := Nat.mod_lt _ hU
  by_cases h : T % U = 0
  · simp only [h, ne_eq, not_true_eq_false, if_false, Nat.add_zero]
    have : T / U * U = U * (T / U) := by ring
    omega
  · simp only [h, ne_eq, not_false_eq_true, if_true]
    have : (T / U + 1) * U = U * (T / U) + U := by ring
    omega

theorem ceil_pred_mul_le (T U i : Nat)
    (hi : i + 1 < T / U + (if T % U ≠ 0 then 1 else 0)) :
    (i + 1) * U ≤ T := by
  have hdm := Nat.div_add_mod T U
  have h1 : i + 1 ≤ T / U := by
    by_cases h : T % U = 0 <;> simp [h] at hi <;> omega
  have h2 : (i + 1) * U ≤ T / U * U := Nat.mul_le_mul_right U h1
  have h3 : T / U * U = U * (T / U) := by ring
  omega

/-! ### Claim theorems -/

/-- C2: for every source file and every plan of byte counts, the contents
of all chunk files written by `split_file` (the trailing remainder chunk
included), concatenated in ascending index order, are exactly the bytes of
the source file — nothing lost, duplicated or reordered. -/
theorem split_concat_exact (orig : String) (file plan : List Nat) :
    ((split_file orig file plan none).disk.map (fun e => e.2)).flatten = file := by
  unfold split_file
  rw [(splitLoop_none_spec orig plan file 1 0).1]
  exact pureDisk_flatten orig plan file 1

/-- C5: with `T` the source size, a plan summing below `T` yields exactly
one extra trailing chunk of exactly `T - sum(plan)` bytes; a plan summing
to `T` yields no trailing chunk; a plan summing above `T` yields no
trailing chunk and the on-disk bytes total `T` (the chunk that reaches
end of file is cut short there). -/
theorem split_boundary (orig : String) (file plan : List Nat) :
    (plan.sum < file.length →
      (split_file orig file plan none).disk.length = plan.length + 1 ∧
      ((split_file orig file plan none).disk.getLast?).map (fun e => e.2.length) =
        some (file.length - plan.sum)) ∧
    (plan.sum = file.length →
      (split_file orig file plan none).disk.length = plan.length) ∧
    (file.length < plan.sum →
      (split_file orig file plan none).disk.length = plan.length ∧
      ((split_file orig file plan none).disk.map (fun e => e.2.length)).sum =
        file.length) := by
  unfold split_file
  rw [(splitLoop_none_spec orig plan file 1 0).1]
  refine ⟨?_, ?_, ?_⟩
  · intro h
    have hz : (file.drop plan.sum).length ≠ 0 := by
      rw [List.length_drop]
      omega
    constructor
    · rw [pureDisk_length orig plan file 1, if_neg hz]
    · rw [pureDisk_getLast_tail orig plan file 1 hz]
      simp [List.length_drop]
  · intro h
    have hz : (file.drop plan.sum).length = 0 := by
      rw [List.length_drop]
      omega
    rw [pureDisk_length orig plan file 1, if_pos hz, Nat.add_zero]
  · intro h
    have hz : (file.drop plan.sum).length = 0 := by
      rw [List.length_drop]
      omega
    exact ⟨by rw [pureDisk_length orig plan file 1, if_pos hz, Nat.add_zero],
      pureDisk_sizes_sum orig plan file 1⟩

/-- Witness for C5 at a concrete input: file of 3 bytes, plan `[2]`, so the
plan sum 2 is below `T = 3` and one trailing chunk of 1 byte appears. -/
theorem split_boundary_witness :
    (split_file "a" [1, 2, 3] [2] none).disk.length = 2 ∧
    ((split_file "a" [1, 2, 3] [2] none).disk.getLast?).map (fun e => e.2.length) =
      some 1 := by
  have h := (split_boundary "a" [1, 2, 3] [2]).1 (by decide)
  exact h

/-- C10: when the source is exhausted before the plan (the sizes before
entry `i` already cover the whole file), entry `i` still produces a chunk
file — created empty — and still gets a progress message reporting its
target size against actual size 0; likewise a plan entry equal to 0
produces a 0-byte chunk file. -/
theorem exhausted_source_empty_chunks (orig : String) (file plan : List Nat)
    (i : Nat) (h1 : i < plan.length) :
    (file.length ≤ (plan.take i).sum →
      (split_file orig file plan none).disk[i]? =
        some (chunkName orig (i + 1), ([] : List Nat)) ∧
      (split_file orig file plan none).log[i]? =
        some (LogMsg.chunk (i + 1) (plan.getD i 0) 0)) ∧
    (plan.getD i 0 = 0 →
      (split_file orig file plan none).disk[i]? =
        some (chunkName orig (i + 1), ([] : List Nat))) := by
  unfold split_file
  rw [(splitLoop_none_spec orig plan file 1 0).1, (splitLoop_none_spec orig plan file 1 0).2.1]
  have hadd : 1 + i = i + 1 := by omega
  constructor
  · intro h2
    have hdrop : file.drop ((plan.take i).sum) = [] := List.drop_eq_nil_of_le h2
    constructor
    · rw [pureDisk_get orig plan file 1 i h1, hdrop, hadd]
      simp
    · rw [pureLog_get orig plan file 1 i h1, hdrop, hadd]
      simp
  · intro h2
    rw [pureDisk_get orig plan file 1 i h1, h2, hadd]
    simp

/-- Witness for C10 at a concrete input: file of 1 byte, plan `[2, 5]`;
entry 1 starts after the file is exhausted, so chunk 002 is created empty
and logged with target 5 and actual 0. -/
theorem exhausted_source_empty_chunks_witness :
    (split_file "a" [1] [2, 5] none).disk[1]? =
      some (chunkName "a" 2, ([] : List Nat)) ∧
    (split_file "a" [1] [2, 5] none).log[1]? =
      some (LogMsg.chunk 2 ([2, 5].getD 1 0) 0) := by
  have h := (exhausted_source_empty_chunks "a" [1] [2, 5] 1 (by decide)).1 (by decide)
  exact h

/-- C6 as stated is false: with an empty plan and a source of 2^20 + 1
bytes, the remainder handling issues `file.read()` with no size argument,
and that single read returns all 2^20 + 1 bytes — more than the 1 MiB the
claim allows for every read. -/
theorem read_bound_counterexample :
    ((split_file "f" (List.replicate (1024 * 1024 + 1) 37) [] none).reads.any
      (fun x => decide (maxReadSize < x))) = true := by
  have h : (split_file "f" (List.replicate (1024 * 1024 + 1) 37) [] none).reads =
      [1024 * 1024 + 1] := by
    unfold split_file
    rw [splitLoop]
    have hlen : (List.replicate (1024 * 1024 + 1) (37 : Nat)).length = 1024 * 1024 + 1 :=
      List.length_replicate _ _
    rw [if_neg (by rw [hlen]; omega),
      if_neg (show ¬ (none : Option Nat) = some 0 by simp), hlen]
  rw [h]
  decide

/-- C6 amended: every read issued by the per-chunk copy loop returns at
most 2^20 bytes, but the read that handles the bytes remaining after the
plan is exhausted is a single `file.read()` without a size bound — it
returns the whole remainder (`T - sum(plan)` bytes, clamped at 0) at once
and is therefore not bounded by 1 MiB. -/
theorem read_bound_amended (orig : String) (file plan : List Nat) :
    ∃ l, (split_file orig file plan none).reads =
        l ++ [(file.drop plan.sum).length] ∧
      ∀ x ∈ l, x ≤ maxReadSize :=
  splitLoop_none_reads orig plan file 1 0

set_option maxRecDepth 100000

/-- C9 as stated is false: a plan of 1000 entries produces a 1000th chunk
file whose name suffix `1000` has four digits, not three — the name is
shorter-claimed `<orig>.<NNN>` with a 3-character `NNN` only up to 999. -/
theorem chunk_numbering_counterexample :
    (split_file "f" [] (List.replicate 1000 0) none).disk.getLast?.map Prod.fst =
      some "f.1000" ∧ ("f.1000").length ≠ "f".length + 1 + 3 := by
  constructor
  · decide
  · decide

/-- C9 amended: every chunk file (the trailing remainder included) is named
`<orig>.<pad3 i>` with consecutive 1-based indices `i` in production order,
where `pad3` left-pads the decimal index with zeros to a minimum width of
3; indices up to 999 therefore render with exactly 3 characters, while
index 1000 renders with 4. -/
theorem chunk_numbering_amended :
    (∀ (orig : String) (file plan : List Nat),
      (split_file orig file plan none).disk.map Prod.fst =
        (List.range' 1 (split_file orig file plan none).disk.length).map
          (chunkName orig)) ∧
    (∀ n : Nat, n < 1000 → (pad3 n).length = 3) ∧
    (pad3 1000).length = 4 := by
  refine ⟨?_, by decide, by decide⟩
  intro orig file plan
  unfold split_file
  rw [(splitLoop_none_spec orig plan file 1 0).1]
  exact pureDisk_names orig plan file 1

/-- Witness for the amended C9 at a concrete index: 7 renders as a
3-character suffix. -/
theorem chunk_numbering_amended_witness : (pad3 7).length = 3 :=
  chunk_numbering_amended.2.1 7 (by decide)

/-- C4: with exactly one size token resolving to `U`, a non-positive `U`
(for byte counts: `U = 0`) raises the invalid-size error before any chunk
file is created, and a positive `U` expands the plan to exactly
`ceil(T/U)` entries all equal to `U`; with more than one token the plan is
exactly the parsed list, unexpanded. -/
theorem plan_derivation (orig : String) (file : List Nat) :
    (∀ U : Nat, U = 0 → start_split orig file [U] none = Except.error invalidSizeMsg) ∧
    (∀ U : Nat, 0 < U → derivePlan [U] file.length =
      Except.ok (List.replicate ((file.length + U - 1) / U) U)) ∧
    (∀ sizes : List Nat, 1 < sizes.length →
      derivePlan sizes file.length = Except.ok sizes) := by
  refine ⟨?_, ?_, ?_⟩
  · intro U hU
    subst hU
    rfl
  · intro U hU
    have hne : U ≠ 0 := by omega
    simp only [derivePlan, if_neg hne]
    rw [ceil_div_eq file.length U hU]
  · intro sizes hlen
    match sizes with
    | [] => simp at hlen
    | [u] => simp at hlen
    | a :: b :: t => rfl

/-- Witness for C4 at concrete inputs: the sole token 0 aborts with the
invalid-size error, and the sole token 2 over a 5-byte file expands to
three entries of 2. -/
theorem plan_derivation_witness :
    start_split "a" [9, 8, 7, 6, 5] [0] none = Except.error invalidSizeMsg ∧
    derivePlan [2] 5 = Except.ok [2, 2, 2] := by
  constructor
  · exact (plan_derivation "a" [9, 8, 7, 6, 5]).1 0 rfl
  · have h := (plan_derivation "a" [9, 8, 7, 6, 5]).2.1 2 (by decide)
    simpa using h

/-- C1: splitting a file of size `T` through the single-token path with a
unit size `U`, `0 < U ≤ T`, produces exactly `ceil(T/U)` chunk files (no
extra trailing chunk), their sizes sum to `T`, and every chunk except
possibly the last has size exactly `U`. -/
theorem single_size_split (orig : String) (file : List Nat) (U : Nat)
    (hU : 0 < U) (hUT : U ≤ file.length) :
    ∃ r, start_split orig file [U] none = Except.ok r ∧
      r.disk.length = (file.length + U - 1) / U ∧
      ((r.disk.map (fun e => e.2.length)).sum = file.length) ∧
      (∀ i, i + 1 < r.disk.length →
        (r.disk[i]?).map (fun e => e.2.length) = some U) := by
  have hne : U ≠ 0 := by omega
  have hplan : derivePlan [U] file.length =
      Except.ok (List.replicate (file.length / U +
        (if file.length % U ≠ 0 then 1 else 0)) U) := by
    simp only [derivePlan, if_neg hne]
  have hstart : start_split orig file [U] none =
      Except.ok (split_file orig file (List.replicate (file.length / U +
        (if file.length % U ≠ 0 then 1 else 0)) U) none) := by
    unfold start_split
    rw [hplan]
  set N := file.length / U + (if file.length % U ≠ 0 then 1 else 0) with hN
  have hdisk : (split_file orig file (List.replicate N U) none).disk =
      pureDisk orig file (List.replicate N U) 1 :=
    (splitLoop_none_spec orig (List.replicate N U) file 1 0).1
  have hsum : (List.replicate N U).sum = N * U := List.sum_const_nat N U
  have hge : file.length ≤ N * U := ceil_mul_ge file.length U hU
  have hrest : (file.drop ((List.replicate N U).sum)).length = 0 := by
    rw [hsum, List.length_drop]
    omega
  have hlenN : (pureDisk orig file (List.replicate N U) 1).length = N := by
    rw [pureDisk_length orig (List.replicate N U) file 1, if_pos hrest,
      Nat.add_zero, List.length_replicate]
  refine ⟨_, hstart, ?_, ?_, ?_⟩
  · rw [hdisk, hlenN, hN, ceil_div_eq file.length U hU]
  · rw [hdisk]
    exact pureDisk_sizes_sum orig (List.replicate N U) file 1
  · intro i hi
    rw [hdisk] at hi ⊢
    rw [hlenN] at hi
    have hiN : i < (List.replicate N U).length := by
      rw [List.length_replicate]
      omega
    rw [pureDisk_get orig (List.replicate N U) file 1 i hiN]
    have htake : ((List.replicate N U).take i).sum = i * U := by
      rw [List.take_replicate, List.sum_const_nat]
      congr 1
      omega
    have hgetD : (List.replicate N U).getD i 0 = U := by
      simp [List.getD, List.getElem?_replicate_of_lt (show i < N by omega)]
    have hle : (i + 1) * U ≤ file.length := ceil_pred_mul_le file.length U i hi
    rw [htake, hgetD]
    simp only [Option.map_some']
    congr 1
    rw [List.length_take, List.length_drop]
    have hmul : (i + 1) * U = i * U + U := by ring
    omega

/-- Witness for C1 at a concrete input: a 5-byte file with unit size 2
produces ceil(5/2) = 3 chunk files. -/
theorem single_size_split_witness :
    (start_split "a" [9, 8, 7, 6, 5] [2] none).map (fun r => r.disk.length) =
      Except.ok 3 := by
  obtain ⟨r, hr, hlen, -, -⟩ :=
    single_size_split "a" [9, 8, 7, 6, 5] 2 (by decide) (by decide)
  rw [hr]
  simp only [Except.map]
  rw [hlen]
  rfl

/-- C3 as stated is false of the program: the token "123456789123456789"
matches the grammar with multiplier 1, so the claim demands the exact
floor 123456789123456789, but the source computes `int(float(...))` and
binary64 rounds the 18-digit value down to 123456789123456784 (its unit
in the last place is 2^4 at this magnitude). -/
theorem parse_size_float_counterexample :
    matchSizeRe (pyLower (pyStrip "123456789123456789".data)) =
      some ⟨"123456789123456789".data, false, [], none, false⟩ ∧
    parse_size "123456789123456789" = Except.ok 123456789123456784 ∧
    Nat.floor (numberVal ⟨"123456789123456789".data, false, [], none, false⟩ *
      (specMultiplier ⟨"123456789123456789".data, false, [], none, false⟩ : ℚ)) =
      123456789123456789 ∧
    (123456789123456784 : Nat) ≠ 123456789123456789 := by
  refine ⟨by decide, by rfl, ?_, by decide⟩
  unfold numberVal
  rw [floor_scaled]
  rfl

/-- C3 amended: `parse_size` returns `int(float(number) * multiplier)`
under binary64 semantics.  Whenever `float` represents the captured
number exactly and the product stays below the binary64 overflow
threshold 2^1024, this is the claimed floor of number times multiplier —
which covers the spec's examples: `parse("1.5mb") = 1572864`,
`parse("100") = 100`, `parse("1gb") = 1073741824`, and the upper-case
form `parse("1.5MB")` agrees.  For numbers binary64 must round (such as
most integers above 2^53), the result is the floor of the rounded number
times the multiplier instead. -/
theorem parse_size_value_amended :
    (∀ (s : String) (m : SizeMatch) (p : Nat × Int),
      matchSizeRe (pyLower (pyStrip s.data)) = some m →
      pyFloat (digitsToNat (m.intDigits ++ m.fracDigits)) m.fracDigits.length = some p →
      floatVal p = numberVal m →
      numberVal m * (specMultiplier m : ℚ) < (2 : ℚ) ^ (1024 : ℕ) →
      parse_size s = Except.ok (Nat.floor (numberVal m * (specMultiplier m : ℚ)))) ∧
    parse_size "1.5mb" = Except.ok 1572864 ∧
    parse_size "100" = Except.ok 100 ∧
    parse_size "1gb" = Except.ok 1073741824 ∧
    parse_size "1.5MB" = Except.ok 1572864 := by
  refine ⟨?_, by rfl, by rfl, by rfl, by rfl⟩
  intro s m p hm hp hexact hlt
  rw [parse_size_eval s m hm]
  unfold pyResult
  rw [hp]
  obtain ⟨m1, t1⟩ := p
  have hval : floatVal (m1 * specMultiplier m, t1) =
      numberVal m * (specMultiplier m : ℚ) := by
    rw [floatVal_mul, hexact]
  have hov : overflows (m1 * specMultiplier m) t1 = false := by
    rw [overflows_false_iff, hval]
    exact hlt
  simp only [pyFloatMul, hov, Bool.false_eq_true, if_false]
  rw [floatToInt_floor, hval]

/-- Witness for the amended C3 at a concrete token: 2.5 is exactly
representable (significand 5 * 2^50 at exponent -51), so "2.5kb" parses
to floor(2.5 * 1024) = 2560. -/
theorem parse_size_value_amended_witness :
    parse_size "2.5kb" = Except.ok 2560 := by
  have h := parse_size_value_amended.1 "2.5kb" ⟨['2'], true, ['5'], some 'k', true⟩
    (5629499534213120, -51) (by decide) (by decide)
    (by
      rw [floatVal_eq_div]
      unfold numberVal
      have hd : digitsToNat (['2'] ++ ['5']) = 25 := by decide
      rw [hd, show ((-51 : Int)).toNat = 0 from rfl,
        show ((-(-51) : Int)).toNat = 51 from rfl]
      norm_num)
    (by
      have hred : numberVal ⟨['2'], true, ['5'], some 'k', true⟩ *
          (specMultiplier ⟨['2'], true, ['5'], some 'k', true⟩ : ℚ) = 2560 := by
        unfold numberVal
        rw [show digitsToNat (['2'] ++ ['5']) = 25 from by decide]
        norm_num [specMultiplier]
      rw [hred]
      calc (2560 : ℚ) < 2 ^ (12 : ℕ) := by norm_num
      _ ≤ 2 ^ (1024 : ℕ) := pow_le_pow_right (by norm_num) (by norm_num))
  rw [h]
  unfold numberVal
  rw [floor_scaled]
  rfl

/-- C7 as stated is false of the program: the token of four hundred 9s
matches the grammar, yet the source errors on it — `float(...)` overflows
to infinity and `int(...)` raises an `OverflowError` (not a format error
carrying the token). -/
theorem parse_overflow_counterexample :
    (matchSizeRe (pyLower (pyStrip (String.mk (List.replicate 400 '9')).data))).isSome =
      true ∧
    parse_size (String.mk (List.replicate 400 '9')) = Except.error overflowMsg ∧
    overflowMsg ≠ String.mk (pyLower (pyStrip (String.mk (List.replicate 400 '9')).data)) := by
  refine ⟨by decide, by rfl, by decide⟩

/-- C7 amended: `parse_size` raises a format error carrying the offending
token (the stripped, lowercased input, as interpolated into the source's
error message) for every input outside the accepted grammar — in
particular for "abc", "-5", "5xb" and "5.5.5" — and for every accepted
input either returns a byte count or raises the int-of-infinity overflow
error, the latter only for tokens whose numeric value overflows binary64
(the empty token is accepted as 0 by the documented rule). -/
theorem parse_grammar_errors_amended :
    (∀ s : String, acceptedToken s = false →
      parse_size s = Except.error (String.mk (pyLower (pyStrip s.data)))) ∧
    (∀ s : String, acceptedToken s = true →
      (∃ n, parse_size s = Except.ok n) ∨ parse_size s = Except.error overflowMsg) ∧
    parse_size "abc" = Except.error "abc" ∧
    parse_size "-5" = Except.error "-5" ∧
    parse_size "5xb" = Except.error "5xb" ∧
    parse_size "5.5.5" = Except.error "5.5.5" := by
  refine ⟨?_, ?_, by rfl, by rfl, by rfl, by rfl⟩
  · intro s hs
    simp only [acceptedToken, Bool.or_eq_false_iff] at hs
    obtain ⟨h1, h2⟩ := hs
    have h1' : ¬ (pyLower (pyStrip s.data)).length = 0 := by
      simpa using h1
    have h2' : matchSizeRe (pyLower (pyStrip s.data)) = none := by
      rcases hx : matchSizeRe (pyLower (pyStrip s.data)) with _ | m
      · rfl
      · rw [hx] at h2
        simp at h2
    unfold parse_size
    rw [if_neg h1', h2']
  · intro s hs
    by_cases h0 : (pyLower (pyStrip s.data)).length = 0
    · refine Or.inl ⟨0, ?_⟩
      unfold parse_size
      rw [if_pos h0]
    · simp only [acceptedToken, Bool.or_eq_true] at hs
      have hsome : (matchSizeRe (pyLower (pyStrip s.data))).isSome = true := by
        rcases hs with hs | hs
        · exfalso
          exact h0 (by simpa using hs)
        · exact hs
      obtain ⟨m, hm⟩ := Option.isSome_iff_exists.mp hsome
      have heval := parse_size_eval s m hm
      unfold pyResult at heval
      rcases hq : pyFloatMul (pyFloat (digitsToNat (m.intDigits ++ m.fracDigits))
          m.fracDigits.length) (specMultiplier m) with _ | q
      · right
        rw [hq] at heval
        exact heval
      · left
        rw [hq] at heval
        exact ⟨floatToInt q.1 q.2, heval⟩

/-- Witness for the amended C7 at a concrete rejected token: "zz" fails
with the format error carrying the token itself. -/
theorem parse_grammar_errors_amended_witness :
    parse_size "zz" = Except.error (String.mk (pyLower (pyStrip "zz".data))) :=
  parse_grammar_errors_amended.1 "zz" (by decide)

/-- C8: if a write raises while `split_file` is writing some chunk, the
run aborts at once: the failing chunk file is the last one created, every
chunk completed before the failure is on disk exactly as in a fault-free
run of the same plan (no rollback, no cleanup, no retry), no later plan
entry is processed, and exactly the completed chunks were logged. -/
theorem split_abort_on_write_error (orig : String) (file plan : List Nat) (k : Nat)
    (h : (split_file orig file plan (some k)).ok = false) :
    (split_file orig file plan (some k)).disk ≠ [] ∧
    (split_file orig file plan (some k)).disk.dropLast =
      (split_file orig file plan none).disk.take
        ((split_file orig file plan (some k)).disk.length - 1) ∧
    (split_file orig file plan (some k)).disk.length ≤
      (split_file orig file plan none).disk.length ∧
    (split_file orig file plan (some k)).log =
      (split_file orig file plan none).log.take
        ((split_file orig file plan (some k)).disk.length - 1) := by
  unfold split_file at h ⊢
  have hf := splitLoop_fault orig k plan file 1 0 (Nat.zero_le k)
  by_cases hcase : (splitLoop orig none file plan 1 0).wcEnd ≤ k
  · exfalso
    rw [hf.1 hcase, (splitLoop_none_spec orig plan file 1 0).2.2] at h
    simp at h
  · push_neg at hcase
    obtain ⟨-, h2, h3, h4, h5⟩ := hf.2 hcase
    exact ⟨h2, h3, h4, h5⟩

/-- Witness for C8 at a concrete input: write call 1 (the first write of
chunk 002) fails; chunk 001 remains on disk with its full contents, the
partial chunk 002 is last, and only chunk 001 was logged. -/
theorem split_abort_on_write_error_witness :
    (split_file "a" [1, 2, 3, 4] [2, 2] (some 1)).disk ≠ [] ∧
    (split_file "a" [1, 2, 3, 4] [2, 2] (some 1)).disk.dropLast =
      (split_file "a" [1, 2, 3, 4] [2, 2] none).disk.take
        ((split_file "a" [1, 2, 3, 4] [2, 2] (some 1)).disk.length - 1) ∧
    (split_file "a" [1, 2, 3, 4] [2, 2] (some 1)).disk.length ≤
      (split_file "a" [1, 2, 3, 4] [2, 2] none).disk.length ∧
    (split_file "a" [1, 2, 3, 4] [2, 2] (some 1)).log =
      (split_file "a" [1, 2, 3, 4] [2, 2] none).log.take
        ((split_file "a" [1, 2, 3, 4] [2, 2] (some 1)).disk.length - 1) :=
  split_abort_on_write_error "a" [1, 2, 3, 4] [2, 2] 1 (by decide)

/-- Witness for the amended C6 at a concrete input: with file `[1,2,3]` and
plan `[2]`, the final read is the one returning the 1-byte remainder. -/
theorem read_bound_amended_witness :
    (split_file "a" [1, 2, 3] [2] none).reads.getLast? =
      some (([1, 2, 3] : List Nat).drop ([2] : List Nat).sum).length := by
  obtain ⟨l, hl, -⟩ := read_bound_amended "a" [1, 2, 3] [2]
  rw [hl]
  exact List.getLast?_concat _
